import Mathlib

/-!
Verification of the research-paper-podcast pipeline.

Shallow embedding of the repository's core functions:
  * `Podcast_Code/generate_audio.py`  — `clean_text`, `VOICES`
  * `Podcast_Code/make_podcast.py`    — `get_next_voice`, `combine_audio_files`,
    `cleanup_temp_files`, `make_podcast`, `process_paper`
  * `Podcast_Code/llm_response.py`    — `get_llm_response`
  * `Make_All_Podcasts.py`            — `add_podcast_to_feed`, `process_all_papers`

Strings from the source are modelled as Lean `String`/`List Char`; dictionaries
as structures with `Option` fields (Python truthiness made explicit); the file
system as an association list from paths to byte-strings; external collaborators
(the language model, the speech synthesizer, band-limited resampling) as
function-valued parameters, so that every definition stays executable.
-/

/-! ## Text normalizer (`generate_audio.clean_text`)

The Python function is, in order:
  1. `text.replace('%', ' percent')`
  2. `text.replace('*', ' ')`
  3. `re.sub(r'[^a-zA-Z0-9.,!?\'\-\s]', ' ', text)`
  4. `re.sub(r'\s+', ' ', cleaned)`
  5. `cleaned.strip()`
modelled on `List Char` (whitespace is the ASCII `\s` set). -/

/-- The character list of the word `percent` that `'%'` expands to. -/
def pctWord : List Char := ['p', 'e', 'r', 'c', 'e', 'n', 't']

/-- ASCII whitespace, the characters matched by the regex class `\s`. -/
def isWsChar (c : Char) : Bool :=
  c = ' ' || c = '\t' || c = '\n' || c = '\r' || c = '\x0b' || c = '\x0c'

/-- Characters kept by step 3's character class `[a-zA-Z0-9.,!?'\-\s]`. -/
def isAllowed (c : Char) : Bool :=
  ('a' ≤ c && c ≤ 'z') || ('A' ≤ c && c ≤ 'Z') || ('0' ≤ c && c ≤ '9') ||
  c = '.' || c = ',' || c = '!' || c = '?' || c = Char.ofNat 39 || c = '-' ||
  isWsChar c

/-- Step 1: `text.replace('%', ' percent')`. -/
def expandPct : List Char → List Char
  | [] => []
  | c :: rest => (if c = '%' then ' ' :: pctWord else [c]) ++ expandPct rest

/-- Step 2: `text.replace('*', ' ')`, applied characterwise. -/
def starToSpace (c : Char) : Char := if c = '*' then ' ' else c

/-- Step 3: the regex substitution replaces every disallowed character by a space. -/
def classify (c : Char) : Char := if isAllowed c then c else ' '

/-- Step 4: `re.sub(r'\s+', ' ', s)` — every maximal whitespace run becomes
one single space (the run's last character survives as `' '`). -/
def collapseWs : List Char → List Char
  | [] => []
  | [c] => [if isWsChar c then ' ' else c]
  | a :: b :: rest =>
    if isWsChar a && isWsChar b then collapseWs (b :: rest)
    else (if isWsChar a then ' ' else a) :: collapseWs (b :: rest)

/-- Helper for step 5: remove trailing whitespace. -/
def dropTrailingWs : List Char → List Char
  | [] => []
  | c :: rest =>
    match dropTrailingWs rest with
    | [] => if isWsChar c then [] else [c]
    | r => c :: r

/-- Step 5: `str.strip()` — drop leading and trailing whitespace. -/
def stripWs (l : List Char) : List Char := dropTrailingWs (l.dropWhile isWsChar)

/-- `generate_audio.clean_text`, steps 1–5 composed in source order. -/
def clean_text (l : List Char) : List Char :=
  stripWs (collapseWs (((expandPct l).map starToSpace).map classify))

/-- Number of (possibly overlapping) occurrences of the pattern `pat` as a
contiguous substring, one test per start position. -/
def countSubstr (pat : List Char) : List Char → Nat
  | [] => 0
  | c :: rest => (if pat.isPrefixOf (c :: rest) then 1 else 0) + countSubstr pat rest

example : clean_text "5%  of *users".toList = "5 percent of users".toList := by decide
example : countSubstr pctWord "a percentpercent b".toList = 2 := by decide
example : clean_text "  a\t\nb  ".toList = "a b".toList := by decide

/-! ## Voices and the voice rotator (`generate_audio.VOICES`, `make_podcast.get_next_voice`) -/

/-- The fixed voice list of `generate_audio.py`. -/
def VOICES : List String := ["af_bella", "af_sarah", "af_heart", "am_michael"]

/-- `make_podcast.get_next_voice`: `next_index = (current_index + 1) % len(voices)`;
returns `(voices[next_index], next_index)`.  The index is an `Int` because the
pipeline starts it at `-1`; `%` is `Int.emod`, which agrees with Python's `%`
for the positive modulus `len(voices)`.  Indexing is total in Python here since
`0 ≤ next_index < len(voices)`; the `getD` default is never reached. -/
def get_next_voice (voices : List String) (current_index : Int) : String × Int :=
  let next_index : Int := (current_index + 1) % (voices.length : Int)
  (voices.getD next_index.toNat "", next_index)

/-- The list of voices produced by `n` successive `get_next_voice` calls
starting from rotator state `idx`. -/
def rotationOutputs (voices : List String) (idx : Int) : Nat → List String
  | 0 => []
  | n + 1 =>
    let p := get_next_voice voices idx
    p.1 :: rotationOutputs voices p.2 n

/-- The rotator state after `n` successive `get_next_voice` calls from state `idx`. -/
def rotationFinal (voices : List String) (idx : Int) : Nat → Int
  | 0 => idx
  | n + 1 => rotationFinal voices ((idx + 1) % (voices.length : Int)) n

example : rotationOutputs VOICES (-1) 6 =
    ["af_bella", "af_sarah", "af_heart", "am_michael", "af_bella", "af_sarah"] := by decide

/-! ## Audio assembly (`make_podcast.combine_audio_files`)

An audio file is a decoded sample buffer (`List ℚ`) tagged with its sample
rate.  `scipy.signal.resample(data, num)` is an external collaborator: it is
passed in as a function `resample` producing a buffer of the requested length
(`num = int(len(data) * target_sr / sr)`, modelled with exact `Nat` division).
The Python loop appends each (possibly resampled) buffer to `combined` and
finally writes `np.concatenate(combined)` at `target_sr`. -/

structure AudioFile where
  data : List ℚ
  sr : Nat
  deriving DecidableEq, Repr

/-- `make_podcast.combine_audio_files`, with the written output file returned as
an `AudioFile` (its sample data and the rate passed to `sf.write`). -/
def combine_audio_files (resample : List ℚ → Nat → List ℚ)
    (file_list : List AudioFile) (target_sr : Nat) : AudioFile :=
  let combined : List (List ℚ) :=
    file_list.foldl (fun acc file =>
      let d := file.data
      let d := if file.sr ≠ target_sr
               then resample d (d.length * target_sr / file.sr)
               else d
      acc ++ [d]) []
  ⟨combined.flatten, target_sr⟩

example :
    combine_audio_files (fun _ n => List.replicate n 0)
      [⟨[1, 2], 22050⟩, ⟨[3], 44100⟩] 44100 = ⟨[0, 0, 0, 0, 3], 44100⟩ := by decide

/-! ## Temp-file cleanup (`make_podcast.cleanup_temp_files`, `process_paper`)

`cleanup_temp_files` iterates over the files of `temp_audio`, calling
`file.unlink()` inside `try ... except FileNotFoundError: pass`, then calls
`temp_dir.rmdir()` inside `try ... except OSError` (warning logged).  The
outcome each `unlink`/`rmdir` call would have is part of the modelled state:
`ok` (removed), `notFound` (raises `FileNotFoundError`), `permErr` (raises a
different `OSError`, e.g. `PermissionError`, which the `except` clause does
not catch). -/

inductive FileOut
  | ok
  | notFound
  | permErr
  deriving DecidableEq, Repr

structure TempDirState where
  present : Bool
  files : List (String × FileOut)
  rmdirOk : Bool
  deriving DecidableEq, Repr

/-- The `for file in temp_dir.glob('*')` loop of `cleanup_temp_files`: returns
the uncaught exception (if any) and the files still present afterwards.
A `permErr` unlink escapes the `except FileNotFoundError` handler, aborting
the loop with that file and all later files still present. -/
def unlinkLoop : List (String × FileOut) → Option String × List (String × FileOut)
  | [] => (none, [])
  | (f, o) :: rest =>
    match o with
    | .ok => unlinkLoop rest
    | .notFound => unlinkLoop rest
    | .permErr => (some ("PermissionError: " ++ f), (f, FileOut.permErr) :: rest)

/-- `make_podcast.cleanup_temp_files`: result is
(uncaught exception, resulting directory state, logged warnings). -/
def cleanup_temp_files (d : TempDirState) : Option String × TempDirState × List String :=
  if d.present then
    match unlinkLoop d.files with
    | (some e, remaining) => (some e, ⟨true, remaining, d.rmdirOk⟩, [])
    | (none, _) =>
      if d.rmdirOk then (none, ⟨false, [], d.rmdirOk⟩, [])
      else (none, ⟨true, [], d.rmdirOk⟩, ["Could not remove temp directory"])
  else (none, d, [])

/-- `make_podcast.process_paper`'s control flow around the temp directory:
`try: make_podcast(...) except: raise finally: cleanup_temp_files(temp_dir)`.
The body's outcome is the parameter `mk` (`none` = returned normally,
`some e` = raised `e`).  Per Python semantics an exception raised inside the
`finally` block supersedes the in-flight exception. -/
def process_paper_cleanup (mk : Option String) (d : TempDirState) :
    Option String × TempDirState × List String :=
  let c := cleanup_temp_files d
  match mk with
  | none => c
  | some e =>
    match c.1 with
    | none => (some e, c.2)
    | some ce' => (some ce', c.2)

example :
    process_paper_cleanup none ⟨true, [("a.wav", .ok), ("b.wav", .permErr), ("c.wav", .ok)], true⟩
      = (some "PermissionError: b.wav",
         ⟨true, [("b.wav", .permErr), ("c.wav", .ok)], true⟩, []) := by decide

/-! ## `llm_response.get_llm_response`

The body of the `try` block (`model.generate_content(...)`, `response.text`,
and the explicit `raise ValueError("Empty response received")` on an empty
structured response) is modelled as an `Except String String` computation; the
outcome of the external generation call is the parameter `gen` (`.error m` =
the call raised an exception whose `str` is `m`).  The surrounding
`except Exception as e: return str(e)` is the final `match`. -/

def llmTryBody (has_schema : Bool) (gen : Except String String) : Except String String := do
  let t ← gen
  if has_schema then
    if t = "" then throw "Empty response received"
    else pure t
  else pure t

/-- `llm_response.get_llm_response`: the value the Python function returns, or
`.error` if it would let an exception escape. -/
def get_llm_response (has_schema : Bool) (gen : Except String String) :
    Except String String :=
  match llmTryBody has_schema gen with
  | .ok t => .ok t
  | .error e => .ok e

example : get_llm_response true (.error "503 Service Unavailable") =
    .ok "503 Service Unavailable" := rfl

/-! ## Feed construction (`Make_All_Podcasts.add_podcast_to_feed`, `process_all_papers`)

A feed entry keeps its `fe.id(...)` string and the document `unique_id` it was
derived from.  `add_podcast_to_feed` unconditionally calls `fg.add_entry()`
and fills it in — there is no membership check inside it.  De-duplication
lives in `process_all_papers`: papers whose `unique_id` is in `existing_ids`
are skipped, and `existing_ids.add(...)` runs at the end of a successful
iteration.  An iteration's fate is one of: metadata load failed (`continue`
before any feed access), an exception before `add_podcast_to_feed` (e.g. in
`process_paper` or the audio upload), an exception after the entry was added
but before `existing_ids.add` (e.g. in `verify_feed_content`), or full
success. -/

structure FeedEntry where
  id : String
  uid : String
  deriving DecidableEq, Repr

/-- `Make_All_Podcasts.add_podcast_to_feed`: appends one entry with
`fe.id(f"pushpod-{metadata['unique_id']}")`; no duplicate check. -/
def add_podcast_to_feed (fg : List FeedEntry) (unique_id : String) : List FeedEntry :=
  fg ++ [⟨"pushpod-" ++ unique_id, unique_id⟩]

inductive RunOutcome
  | metaFail
  | procFail
  | postAddFail
  | ok
  deriving DecidableEq, Repr

structure PaperRun where
  uid : String
  outcome : RunOutcome
  deriving DecidableEq, Repr

/-- One iteration of the `for pdf_path in pdf_files` loop of
`process_all_papers`, acting on the feed and the `existing_ids` set. -/
def runPaper (fg : List FeedEntry) (ids : List String) (p : PaperRun) :
    List FeedEntry × List String :=
  if p.uid ∈ ids then (fg, ids)
  else
    match p.outcome with
    | .metaFail => (fg, ids)
    | .procFail => (fg, ids)
    | .postAddFail => (add_podcast_to_feed fg p.uid, ids)
    | .ok => (add_podcast_to_feed fg p.uid, p.uid :: ids)

/-- The whole batch loop of `Make_All_Podcasts.process_all_papers`, starting
from the feed and id set produced by `load_existing_feed`. -/
def process_all_papers (papers : List PaperRun) (fg : List FeedEntry)
    (ids : List String) : List FeedEntry × List String :=
  papers.foldl (fun s p => runPaper s.1 s.2 p) (fg, ids)

example :
    process_all_papers [⟨"nber_w1", .ok⟩, ⟨"nber_w1", .ok⟩, ⟨"nber_w2", .procFail⟩] [] []
      = ([⟨"pushpod-nber_w1", "nber_w1"⟩], ["nber_w1"]) := by decide

/-! ## The episode pipeline (`make_podcast.make_podcast`)

`PaperMetadata` dictionaries are modelled with `Option` fields;
`metadata_dict.get(key)` truthiness (`None`, `[]` and `""` are falsy) is made
explicit by `truthyList`/`truthyStr`.  The file system is an association list
from paths to file contents (`fsSet` prepends, `fsGet`/`fsExists` read the
most recent entry); each external call of the pipeline is both recorded as an
`Effect` (in source order) and resolved through the oracle environment `Env`,
so that the whole pipeline stays an executable function. -/

structure Metadata where
  title : String
  authors : Option (List String)
  journal : Option String
  publication_date : Option String
  deriving DecidableEq, Repr

/-- Python truthiness of `metadata_dict.get('authors')`. -/
def truthyList : Option (List String) → Bool
  | none => false
  | some l => !l.isEmpty

/-- Python truthiness of `metadata_dict.get('journal')` / `.get('publication_date')`. -/
def truthyStr : Option String → Bool
  | none => false
  | some s => !s.isEmpty

/-- The metadata segment text built in `make_podcast` (lines 247–254):
`f"Title: {...}."` followed by the three conditional `+=` appends. -/
def metadata_text (md : Metadata) : String :=
  let t := "Title: " ++ md.title ++ "."
  let t := if truthyList md.authors
           then t ++ " By " ++ String.intercalate ", " (md.authors.getD []) ++ "."
           else t
  let t := if truthyStr md.journal
           then t ++ " Published in " ++ md.journal.getD "" ++ "."
           else t
  let t := if truthyStr md.publication_date
           then t ++ " Date: " ++ md.publication_date.getD "" ++ "."
           else t
  t

example :
    metadata_text ⟨"T", some ["A", "B"], some "J", none⟩
      = "Title: T. By A, B. Published in J." := rfl

/-- One record of `PaperSections` (`llm_response.SectionContent` plus the
`bullets` key read by the loop). -/
structure PlanSection where
  name : String
  content_prompt : String
  bullets : List String
  deriving DecidableEq, Repr

/-- Oracle environment: the values the external collaborators (Gemini/OpenAI
calls, the Kokoro synthesizer) return during one `make_podcast` run. -/
structure Env where
  structured_metadata : Metadata
  summary : String
  sections : List PlanSection
  background : String
  sectionContent : PlanSection → String
  takeaways : String → String
  synth : String → String → String

/-- A synthesized narration segment: its spoken text, assigned voice, and the
temp file it is written to. -/
structure Segment where
  text : String
  voice : String
  file : String
  deriving DecidableEq, Repr

inductive Effect
  | llm (kind : String)
  | synth (text : String) (voice : String) (file : String)
  | combine (files : List String) (output : String)
  deriving DecidableEq, Repr

/-- File system: newest entries first; `fsSet` shadows older entries. -/
def FS := List (String × String)

def fsSet (fs : FS) (p v : String) : FS := (p, v) :: fs

def fsExists (fs : FS) (p : String) : Bool := fs.any (fun e => e.1 == p)

def fsGet (fs : FS) (p : String) : String :=
  ((fs.find? (fun e => e.1 == p)).map Prod.snd).getD ""

/-- `cleanup_temp_files(temp_dir)` on the success path: every file under
`temp_audio/` is unlinked. -/
def fsCleanupTemp (fs : FS) : FS :=
  fs.filter (fun e => !e.1.startsWith "temp_audio/")

/-- The `for section in all_bullet_points["sections"]` loop: per section one
`generate_section_details` LLM call and one `generate_audio` call, with the
rotator state threaded through.  Returns (segments, effects, final rotator
state). -/
def processSections (env : Env) (voices : List String) :
    Int → List PlanSection → List Segment × List Effect × Int
  | idx, [] => ([], [], idx)
  | idx, s :: rest =>
    let p := get_next_voice voices idx
    let content := env.sectionContent s
    let seg : Segment := ⟨content, p.1, "temp_audio/" ++ s.name ++ ".wav"⟩
    let r := processSections env voices p.2 rest
    (seg :: r.1,
     Effect.llm ("generate_section_details:" ++ s.name)
       :: Effect.synth content p.1 seg.file :: r.2.1,
     r.2.2)

/-- `make_podcast.make_podcast`.  Returns the resulting file system, the list
of external effects in source order, and the ordered segment list whose files
are handed to `combine_audio_files`.  The early-exists branch (lines 216–218)
returns before any effect. -/
def make_podcast (fs : FS) (pdf_path output_path : String)
    (metadata_dict : Option Metadata) (env : Env) : FS × List Effect × List Segment :=
  if fsExists fs output_path then (fs, [], [])
  else
    let mdEff : List Effect :=
      match metadata_dict with
      | none => [Effect.llm "get_structured_metadata"]
      | some _ => []
    let md : Metadata :=
      match metadata_dict with
      | none => env.structured_metadata
      | some m => m
    let summary := env.summary
    let sections := env.sections
    let mtext := metadata_text md
    let mseg : Segment := ⟨mtext, VOICES.getD 0 "", "temp_audio/metadata.wav"⟩
    let p1 := get_next_voice VOICES (-1)
    let high_school_intro := "First, let me give you a simple overview that anyone can understand."
    let sumText := high_school_intro ++ " " ++ summary
    let sseg : Segment := ⟨sumText, p1.1, "temp_audio/high_school_summary.wav"⟩
    let p2 := get_next_voice VOICES p1.2
    let background_intro := "Now, let me provide some context about the broader research landscape."
    let bText := background_intro ++ " " ++ env.background
    let bseg : Segment := ⟨bText, p2.1, "temp_audio/background_overview.wav"⟩
    let ps := processSections env VOICES p2.2 sections
    let secSegs := ps.1
    let secEffs := ps.2.1
    let p3 := get_next_voice VOICES ps.2.2
    let script_text := String.intercalate "\n\n" ([mtext, sumText, bText] ++ secSegs.map Segment.text)
    let takeaway_intro := "To wrap up, here are the key takeaways from our discussion:"
    let tText := takeaway_intro ++ " " ++ env.takeaways script_text
    let tseg : Segment := ⟨tText, p3.1, "temp_audio/final_takeaways.wav"⟩
    let segs := [mseg, sseg, bseg] ++ secSegs ++ [tseg]
    let effects := mdEff
      ++ [Effect.llm "get_high_school_summary", Effect.llm "get_all_section_bullets_at_once",
          Effect.synth mtext mseg.voice mseg.file,
          Effect.synth sumText p1.1 sseg.file,
          Effect.llm "get_background_overview",
          Effect.synth bText p2.1 bseg.file]
      ++ secEffs
      ++ [Effect.llm "get_final_takeaways", Effect.synth tText p3.1 tseg.file]
      ++ [Effect.combine (segs.map Segment.file) output_path]
    let fs1 := segs.foldl (fun a s => fsSet a s.file (env.synth s.text s.voice)) fs
    let final_audio := String.join ((segs.map Segment.file).map (fun f => fsGet fs1 f))
    let fs2 := fsSet fs1 output_path final_audio
    let fs3 := fsCleanupTemp fs2
    (fs3, effects, segs)

/-- A small concrete oracle environment used by witnesses below. -/
def envW : Env where
  structured_metadata := ⟨"Extracted", some ["X"], none, none⟩
  summary := "sum"
  sections := [⟨"Data", "about data", ["b1", "b2"]⟩]
  background := "bg"
  sectionContent := fun s => "content of " ++ s.name
  takeaways := fun _ => "tk"
  synth := fun t v => "[" ++ v ++ "]" ++ t

example :
    (make_podcast [("out.wav", "bytes")] "p.pdf" "out.wav" none envW)
      = ([("out.wav", "bytes")], [], []) := rfl

example :
    ((make_podcast [] "p.pdf" "out.wav" (some ⟨"T", none, none, none⟩) envW).2.2.map Segment.voice)
      = ["af_bella", "af_bella", "af_sarah", "af_heart", "am_michael"] := rfl

/-! ## Rotator lemmas -/

/-- Closed form of the rotator output stream: the `k`-th call after state
`idx` returns `voices[(idx + 1 + k) % len(voices)]`. -/
theorem rotationOutputs_eq (voices : List String) (idx : Int) (n : Nat) :
    rotationOutputs voices idx n =
      (List.range n).map
        (fun (k : Nat) =>
          voices.getD (((idx + 1 + (k : Int)) % (voices.length : Int)).toNat) "") := by
  induction n generalizing idx with
  | zero => simp [rotationOutputs]
  | succ n ih =>
    rw [rotationOutputs, List.range_succ_eq_map, List.map_cons, List.map_map]
    simp only [get_next_voice]
    rw [ih]
    congr 1
    · norm_num
    · apply List.map_congr_left
      intro k _
      simp only [Function.comp]
      congr 2
      rw [add_assoc, Int.emod_add_emod]
      push_cast
      ring

theorem rotationOutputs_length (voices : List String) (idx : Int) (n : Nat) :
    (rotationOutputs voices idx n).length = n := by
  rw [rotationOutputs_eq]; simp

theorem rotationOutputs_append (voices : List String) (idx : Int) (m n : Nat) :
    rotationOutputs voices idx (m + n)
      = rotationOutputs voices idx m
          ++ rotationOutputs voices (rotationFinal voices idx m) n := by
  induction m generalizing idx with
  | zero => simp [rotationOutputs, rotationFinal]
  | succ m ih =>
    rw [Nat.succ_add, rotationOutputs, rotationOutputs]
    simp only [get_next_voice, rotationFinal]
    rw [ih]
    simp

theorem rotationFinal_eq (voices : List String) (idx : Int) (n : Nat) :
    rotationFinal voices idx (n + 1) = (idx + (n + 1)) % (voices.length : Int) := by
  induction n generalizing idx with
  | zero => simp [rotationFinal]
  | succ n ih =>
    rw [rotationFinal, ih]
    rw [Int.emod_add_emod]
    congr 1
    push_cast
    ring

/-- Index form of the rotator stream from the pipeline's initial state `-1`:
the `i`-th call returns `voices[i % L]`. -/
theorem rotationOutputs_getD (voices : List String) (n i : Nat) (hi : i < n) :
    (rotationOutputs voices (-1) n).getD i "" = voices.getD (i % voices.length) "" := by
  rw [rotationOutputs_eq, List.getD_eq_getElem?_getD, List.getElem?_map,
      List.getElem?_range hi]
  simp only [Option.map_some', Option.getD_some]
  congr 1
  rw [show (-1 + 1 + (i : Int)) = ((i : Nat) : Int) by push_cast; ring,
      ← Int.natCast_mod, Int.toNat_natCast]

/-- C8: voice rotator cycle property.  Starting from the initial state `-1`
(`current_voice_idx = -1` in `make_podcast`), the `i`-th `get_next_voice` call
(0-indexed) returns `voices[i % L]`; the first `L` calls return each of the
`L` voices exactly once, in list order; and of `L + k` calls the last `k`
repeat the same cycle, equal to the first `k` calls of a fresh rotator. -/
theorem c8_rotator_cycle (voices : List String) (h : voices ≠ []) :
    (∀ n i, i < n →
      (rotationOutputs voices (-1) n).getD i ""
        = voices.getD (i % voices.length) "") ∧
    rotationOutputs voices (-1) voices.length = voices ∧
    (∀ k, (rotationOutputs voices (-1) (voices.length + k)).drop voices.length
        = rotationOutputs voices (-1) k) := by
  have hL : 0 < voices.length := List.length_pos.mpr h
  refine ⟨fun n i hi => rotationOutputs_getD voices n i hi, ?_, ?_⟩
  · rw [rotationOutputs_eq]
    apply List.ext_getElem?
    intro i
    rcases Nat.lt_or_ge i voices.length with hi | hi
    · rw [List.getElem?_map, List.getElem?_range hi, List.getElem?_eq_getElem hi]
      simp only [Option.map_some']
      congr 1
      have e1 : ((-1 + 1 + (i : Int)) % (voices.length : Int)).toNat = i := by
        rw [show (-1 + 1 + (i : Int)) = ((i : Nat) : Int) by push_cast; ring,
            ← Int.natCast_mod, Int.toNat_natCast, Nat.mod_eq_of_lt hi]
      rw [e1, List.getD_eq_getElem?_getD, List.getElem?_eq_getElem hi]
      simp
    · rw [List.getElem?_eq_none (by simpa using hi), List.getElem?_eq_none hi]
  · intro k
    have hdrop : ∀ (l₁ l₂ : List String), l₁.length = voices.length →
        (l₁ ++ l₂).drop voices.length = l₂ := by
      intro l₁ l₂ hl
      rw [← hl, List.drop_left]
    rw [rotationOutputs_append, hdrop _ _ (rotationOutputs_length _ _ _)]
    obtain ⟨m, hm⟩ : ∃ m, voices.length = m + 1 := ⟨voices.length - 1, by omega⟩
    have hfin : rotationFinal voices (-1) voices.length
        = (-1 + (voices.length : Int)) % (voices.length : Int) := by
      conv_lhs => rw [hm, rotationFinal_eq]
      congr 1
      push_cast [hm]
      ring
    rw [hfin, rotationOutputs_eq, rotationOutputs_eq]
    apply List.map_congr_left
    intro j _
    congr 2
    rw [add_assoc, Int.emod_add_emod,
        show (-1 + (voices.length : Int)) + (1 + (j : Int))
          = (j : Int) + 1 * (voices.length : Int) by ring,
        Int.add_mul_emod_self]
    congr 1
    ring

/-- Witness for `c8_rotator_cycle` at the concrete `VOICES` list. -/
theorem c8_rotator_cycle_witness :
    rotationOutputs VOICES (-1) VOICES.length = VOICES ∧
    (rotationOutputs VOICES (-1) (VOICES.length + 2)).drop VOICES.length
      = rotationOutputs VOICES (-1) 2 ∧
    (rotationOutputs VOICES (-1) 6).getD 5 "" = VOICES.getD (5 % VOICES.length) "" :=
  ⟨(c8_rotator_cycle VOICES (by decide)).2.1,
   (c8_rotator_cycle VOICES (by decide)).2.2 2,
   (c8_rotator_cycle VOICES (by decide)).1 6 5 (by decide)⟩

/-- C10: `get_llm_response` never lets an exception escape from response
generation: the result is always an `.ok` string, and when generation raises
an exception its message string is returned as the ordinary return value, of
the same type as a successful narration response. -/
theorem c10_llm_swallows_errors (has_schema : Bool) (gen : Except String String) :
    ∃ s, get_llm_response has_schema gen = .ok s ∧
      (∀ m, gen = .error m → s = m) := by
  cases gen with
  | error e =>
    refine ⟨e, rfl, ?_⟩
    intro m hm
    cases hm
    rfl
  | ok t =>
    by_cases hs : has_schema
    · by_cases ht : t = ""
      · refine ⟨"Empty response received", ?_, ?_⟩
        · subst ht
          simp [get_llm_response, llmTryBody, hs, Bind.bind, Except.bind]
        · intro m hm
          cases hm
      · refine ⟨t, ?_, ?_⟩
        · simp [get_llm_response, llmTryBody, hs, ht, Bind.bind, Except.bind, Pure.pure,
                Except.pure]
        · intro m hm
          cases hm
    · refine ⟨t, ?_, ?_⟩
      · simp [get_llm_response, llmTryBody, hs, Bind.bind, Except.bind, Pure.pure,
              Except.pure]
      · intro m hm
        cases hm

/-- Witness for `c10_llm_swallows_errors`: a concrete generation failure. -/
theorem c10_llm_swallows_errors_witness :
    ∃ s, get_llm_response true (Except.error "429 Resource exhausted") = .ok s ∧
      (∀ m, (Except.error "429 Resource exhausted" : Except String String)
        = .error m → s = m) :=
  c10_llm_swallows_errors true (.error "429 Resource exhausted")

/-- Folding append-of-singletons equals `map`. -/
theorem foldl_concat_eq_map {α β : Type} (g : α → β) (l : List α) :
    ∀ acc : List β, l.foldl (fun a x => a ++ [g x]) acc = acc ++ l.map g := by
  induction l with
  | nil => intro acc; simp
  | cons x xs ih => intro acc; simp [ih]

/-- C3: `combine_audio_files` writes one output at the target rate whose
sample data is the concatenation, in input-list order, of each input's
samples, where an input whose rate differs from the target is first resampled
to `int(len(data) * target_sr / sr)` samples (the hypothesis `hres` is the
length contract of `scipy.signal.resample`) and an input already at the
target rate is included unchanged. -/
theorem c3_combine_order (resample : List ℚ → Nat → List ℚ)
    (hres : ∀ d n, (resample d n).length = n)
    (file_list : List AudioFile) (target_sr : Nat) :
    combine_audio_files resample file_list target_sr
      = ⟨(file_list.map (fun f =>
            if f.sr = target_sr then f.data
            else resample f.data (f.data.length * target_sr / f.sr))).flatten,
         target_sr⟩
    ∧ ∀ f ∈ file_list, f.sr ≠ target_sr →
        (resample f.data (f.data.length * target_sr / f.sr)).length
          = f.data.length * target_sr / f.sr := by
  constructor
  · simp only [combine_audio_files]
    rw [foldl_concat_eq_map
      (fun file => if file.sr ≠ target_sr
                   then resample file.data (file.data.length * target_sr / file.sr)
                   else file.data) file_list []]
    simp only [List.nil_append]
    congr 1
    congr 1
    apply List.map_congr_left
    intro f _
    by_cases hf : f.sr = target_sr <;> simp [hf]
  · intro f _ _
    exact hres _ _

/-- Witness for `c3_combine_order`: one input needing resampling
(22050 Hz → 44100 Hz doubles the sample count) and one already at target. -/
theorem c3_combine_order_witness :
    combine_audio_files (fun _ n => List.replicate n 0)
        [⟨[1, 2], 22050⟩, ⟨[3], 44100⟩] 44100
      = ⟨(([⟨[1, 2], 22050⟩, ⟨[3], 44100⟩] : List AudioFile).map (fun f =>
            if f.sr = 44100 then f.data
            else (fun (_ : List ℚ) n => List.replicate n (0 : ℚ)) f.data
                   (f.data.length * 44100 / f.sr))).flatten,
         44100⟩ :=
  (c3_combine_order (fun _ n => List.replicate n 0)
    (fun _ n => List.length_replicate n 0)
    [⟨[1, 2], 22050⟩, ⟨[3], 44100⟩] 44100).1

/-- The sequentially-built metadata text equals the flat four-part template. -/
theorem metadata_text_flat (md : Metadata) :
    metadata_text md
      = "Title: " ++ md.title ++ "."
        ++ (if truthyList md.authors
            then " By " ++ String.intercalate ", " (md.authors.getD []) ++ "." else "")
        ++ (if truthyStr md.journal
            then " Published in " ++ md.journal.getD "" ++ "." else "")
        ++ (if truthyStr md.publication_date
            then " Date: " ++ md.publication_date.getD "" ++ "." else "") := by
  unfold metadata_text
  cases h1 : truthyList md.authors <;> cases h2 : truthyStr md.journal <;>
    cases h3 : truthyStr md.publication_date <;>
      simp only [h1, h2, h3, Bool.false_eq_true, if_false, if_true,
        String.append_empty, String.append_assoc]

/-- C7: the metadata segment's spoken text is the deterministic template
`"Title: {title}."`, then `" By {authors joined with comma-space}."` exactly
when the authors field is present and non-empty, then
`" Published in {journal}."` exactly when the journal field is present and
non-empty, then `" Date: {date}."` exactly when the publication-date field is
present and non-empty.  The equation holds for every oracle environment
`env`, so no language-model response enters into the text. -/
theorem c7_metadata_segment_template (md : Metadata) (fs : FS) (pdf out : String)
    (env : Env) (h : fsExists fs out = false) :
    ((make_podcast fs pdf out (some md) env).2.2.head?).map Segment.text
      = some ("Title: " ++ md.title ++ "."
          ++ (if truthyList md.authors
              then " By " ++ String.intercalate ", " (md.authors.getD []) ++ "." else "")
          ++ (if truthyStr md.journal
              then " Published in " ++ md.journal.getD "" ++ "." else "")
          ++ (if truthyStr md.publication_date
              then " Date: " ++ md.publication_date.getD "" ++ "." else "")) := by
  have hseg : ((make_podcast fs pdf out (some md) env).2.2.head?).map Segment.text
      = some (metadata_text md) := by
    simp [make_podcast, h]
  rw [hseg, metadata_text_flat]

/-- Witness for `c7_metadata_segment_template` on a metadata dictionary with
authors and journal present and publication date absent. -/
theorem c7_metadata_segment_template_witness :
    ((make_podcast [] "p.pdf" "out.wav"
        (some ⟨"Deep Models", some ["Ada Lovelace", "Alan Turing"], some "JMLR", none⟩)
        envW).2.2.head?).map Segment.text
      = some "Title: Deep Models. By Ada Lovelace, Alan Turing. Published in JMLR." := by
  have h := c7_metadata_segment_template
    ⟨"Deep Models", some ["Ada Lovelace", "Alan Turing"], some "JMLR", none⟩
    [] "p.pdf" "out.wav" envW rfl
  simpa using h

/-- When no unlink would raise an uncaught error, the loop removes every file. -/
theorem unlinkLoop_no_permErr (files : List (String × FileOut))
    (h : ∀ fo ∈ files, fo.2 ≠ FileOut.permErr) : unlinkLoop files = (none, []) := by
  induction files with
  | nil => rfl
  | cons f rest ih =>
    have hf := h f (List.mem_cons_self f rest)
    have hr := fun fo hfo => h fo (List.mem_cons_of_mem f hfo)
    cases ho : f.2 with
    | ok =>
      rcases f with ⟨n, o⟩
      simp only at ho
      subst ho
      simpa [unlinkLoop] using ih hr
    | notFound =>
      rcases f with ⟨n, o⟩
      simp only at ho
      subst ho
      simpa [unlinkLoop] using ih hr
    | permErr => exact absurd ho hf

/-- C5 counterexample: a `PermissionError` while unlinking `b.wav` escapes
`cleanup_temp_files` (the `except` clause only catches `FileNotFoundError`),
so cleanup neither continues to the remaining files nor removes the
directory, and the exception propagates out of `process_paper`. -/
theorem c5_counterexample :
    (process_paper_cleanup none
        ⟨true, [("a.wav", .ok), ("b.wav", .permErr), ("c.wav", .ok)], true⟩).1
      = some "PermissionError: b.wav"
  ∧ (process_paper_cleanup none
        ⟨true, [("a.wav", .ok), ("b.wav", .permErr), ("c.wav", .ok)], true⟩).2.1.files
      = [("b.wav", .permErr), ("c.wav", .ok)]
  ∧ (process_paper_cleanup none
        ⟨true, [("a.wav", .ok), ("b.wav", .permErr), ("c.wav", .ok)], true⟩).2.1.present
      = true :=
  ⟨rfl, rfl, rfl⟩

/-- C5 amended: cleanup of the temp directory is attempted on every exit path
of `process_paper` (the `finally` block), and when no individual unlink fails
with an error other than `FileNotFoundError`, cleanup removes all files,
raises nothing, treats failure to remove the directory itself as non-fatal
(a logged warning, directory left in place), and an exception raised by
`make_podcast` is re-raised after cleanup.  A non-`FileNotFoundError` unlink
failure, however, propagates (see the counterexample). -/
theorem c5_amended_cleanup (mk : Option String) (d : TempDirState) :
    ((process_paper_cleanup mk d).2 = (cleanup_temp_files d).2)
  ∧ ((∀ fo ∈ d.files, fo.2 ≠ FileOut.permErr) → d.present = true →
      (cleanup_temp_files d).1 = none
    ∧ (cleanup_temp_files d).2.1.files = []
    ∧ (cleanup_temp_files d).2.1.present = !d.rmdirOk
    ∧ (cleanup_temp_files d).2.2
        = (if d.rmdirOk then [] else ["Could not remove temp directory"]))
  ∧ (∀ e, mk = some e → (cleanup_temp_files d).1 = none →
      (process_paper_cleanup mk d).1 = some e) := by
  refine ⟨?_, ?_, ?_⟩
  · cases mk with
    | none => rfl
    | some e =>
      rcases hc : (cleanup_temp_files d).1 with _ | ce' <;>
        simp [process_paper_cleanup, hc]
  · intro hperm hpres
    have hu := unlinkLoop_no_permErr d.files hperm
    cases hr : d.rmdirOk <;>
      simp [cleanup_temp_files, hpres, hu, hr]
  · intro e hmk hce
    subst hmk
    simp [process_paper_cleanup, hce]

/-- Witness for `c5_amended_cleanup`: a failed body, one already-missing file,
and a directory whose removal fails (non-fatally). -/
theorem c5_amended_cleanup_witness :
    ((process_paper_cleanup (some "boom")
        ⟨true, [("x.wav", .notFound), ("y.wav", .ok)], false⟩).2
      = (cleanup_temp_files ⟨true, [("x.wav", .notFound), ("y.wav", .ok)], false⟩).2)
  ∧ (cleanup_temp_files ⟨true, [("x.wav", .notFound), ("y.wav", .ok)], false⟩).2.1.files = []
  ∧ (process_paper_cleanup (some "boom")
        ⟨true, [("x.wav", .notFound), ("y.wav", .ok)], false⟩).1 = some "boom" :=
  ⟨(c5_amended_cleanup (some "boom") ⟨true, [("x.wav", .notFound), ("y.wav", .ok)], false⟩).1,
   ((c5_amended_cleanup (some "boom")
       ⟨true, [("x.wav", .notFound), ("y.wav", .ok)], false⟩).2.1
     (by decide) rfl).2.1,
   (c5_amended_cleanup (some "boom")
       ⟨true, [("x.wav", .notFound), ("y.wav", .ok)], false⟩).2.2 "boom" rfl rfl⟩

/-- C6 counterexample: `add_podcast_to_feed` performs no membership check, so
calling it a second time with an id already present leaves two entries for
that id, not one. -/
theorem c6_counterexample :
    ((add_podcast_to_feed (add_podcast_to_feed [] "nber_w1") "nber_w1").filter
        (fun e => e.uid == "nber_w1")).length ≠ 1 := by decide

/-- Invariant of the batch loop: if every feed uid is either recorded in
`existing_ids` or never occurs among the remaining papers, and the papers'
uids are pairwise distinct, then the loop keeps feed uids duplicate-free. -/
theorem c6_loop_invariant :
    ∀ (papers : List PaperRun) (fg : List FeedEntry) (ids : List String),
      (fg.map FeedEntry.uid).Nodup →
      (∀ e ∈ fg, e.uid ∈ ids ∨ e.uid ∉ papers.map PaperRun.uid) →
      (papers.map PaperRun.uid).Nodup →
      ((process_all_papers papers fg ids).1.map FeedEntry.uid).Nodup := by
  intro papers
  induction papers with
  | nil =>
    intro fg ids h1 _ _
    simpa [process_all_papers] using h1
  | cons p rest ih =>
    intro fg ids h1 h2 h3
    have hstep : process_all_papers (p :: rest) fg ids
        = process_all_papers rest (runPaper fg ids p).1 (runPaper fg ids p).2 := by
      simp [process_all_papers]
    rw [hstep]
    have h3' : (rest.map PaperRun.uid).Nodup :=
      (List.nodup_cons.mp (by simpa using h3)).2
    have hphead : p.uid ∉ rest.map PaperRun.uid :=
      (List.nodup_cons.mp (by simpa using h3)).1
    have hskip : ∀ e ∈ fg, e.uid ∈ ids ∨ e.uid ∉ rest.map PaperRun.uid := by
      intro e he
      rcases h2 e he with hid | hni
      · exact Or.inl hid
      · exact Or.inr (fun hmem => hni (by simp [hmem]))
    by_cases hin : p.uid ∈ ids
    · rw [show runPaper fg ids p = (fg, ids) by simp [runPaper, hin]]
      exact ih fg ids h1 hskip h3'
    · have hnotin_fg : p.uid ∉ fg.map FeedEntry.uid := by
        intro hmem
        rcases List.mem_map.mp hmem with ⟨e, he, heq⟩
        rcases h2 e he with hid | hni
        · exact hin (heq ▸ hid)
        · exact hni (by simp [heq])
      have hnodup' : ((fg ++ [(⟨"pushpod-" ++ p.uid, p.uid⟩ : FeedEntry)]).map
          FeedEntry.uid).Nodup := by
        rw [List.map_append]
        simp [List.nodup_append, h1, hnotin_fg]
      cases ho : p.outcome with
      | metaFail =>
        rw [show runPaper fg ids p = (fg, ids) by simp [runPaper, hin, ho]]
        exact ih fg ids h1 hskip h3'
      | procFail =>
        rw [show runPaper fg ids p = (fg, ids) by simp [runPaper, hin, ho]]
        exact ih fg ids h1 hskip h3'
      | postAddFail =>
        rw [show runPaper fg ids p
            = (fg ++ [(⟨"pushpod-" ++ p.uid, p.uid⟩ : FeedEntry)], ids) by
          simp [runPaper, hin, ho, add_podcast_to_feed]]
        apply ih _ _ hnodup' _ h3'
        intro e he
        rcases List.mem_append.mp he with hfg | hnew
        · exact hskip e hfg
        · have : e.uid = p.uid := by
            rcases List.mem_singleton.mp hnew with h'
            rw [h']
          exact Or.inr (this ▸ hphead)
      | ok =>
        rw [show runPaper fg ids p
            = (fg ++ [(⟨"pushpod-" ++ p.uid, p.uid⟩ : FeedEntry)], p.uid :: ids) by
          simp [runPaper, hin, ho, add_podcast_to_feed]]
        apply ih _ _ hnodup' _ h3'
        intro e he
        rcases List.mem_append.mp he with hfg | hnew
        · rcases hskip e hfg with hid | hni
          · exact Or.inl (List.mem_cons_of_mem _ hid)
          · exact Or.inr hni
        · have : e.uid = p.uid := by
            rcases List.mem_singleton.mp hnew with h'
            rw [h']
          exact Or.inl (this ▸ List.mem_cons_self _ _)

/-- C6 amended: `add_podcast_to_feed` alone does not de-duplicate (see the
counterexample); uniqueness of feed uids is maintained by the batch loop of
`process_all_papers`, whose membership check against `existing_ids` skips
papers already registered, provided the loaded feed was duplicate-free, its
uids were all recorded in `existing_ids`, and the batch contains no two
papers with the same `unique_id`. -/
theorem c6_amended_feed_nodup (papers : List PaperRun) (fg : List FeedEntry)
    (ids : List String)
    (h1 : (fg.map FeedEntry.uid).Nodup)
    (h2 : ∀ e ∈ fg, e.uid ∈ ids)
    (h3 : (papers.map PaperRun.uid).Nodup) :
    ((process_all_papers papers fg ids).1.map FeedEntry.uid).Nodup :=
  c6_loop_invariant papers fg ids h1 (fun e he => Or.inl (h2 e he)) h3

/-- Witness for `c6_amended_feed_nodup`: a pre-loaded feed entry plus a batch
with a success, a failure after feed registration, and a skipped duplicate of
the pre-loaded id. -/
theorem c6_amended_feed_nodup_witness :
    ((process_all_papers
        [⟨"nber_w2", .ok⟩, ⟨"nber_w3", .postAddFail⟩, ⟨"nber_w1", .ok⟩]
        [⟨"pushpod-nber_w1", "nber_w1"⟩] ["nber_w1"]).1.map FeedEntry.uid).Nodup :=
  c6_amended_feed_nodup
    [⟨"nber_w2", .ok⟩, ⟨"nber_w3", .postAddFail⟩, ⟨"nber_w1", .ok⟩]
    [⟨"pushpod-nber_w1", "nber_w1"⟩] ["nber_w1"]
    (by decide) (by decide) (by decide)

/-! ## Pipeline lemmas -/

theorem processSections_files (env : Env) (voices : List String) :
    ∀ (secs : List PlanSection) (idx : Int),
      (processSections env voices idx secs).1.map Segment.file
        = secs.map (fun s => "temp_audio/" ++ s.name ++ ".wav") := by
  intro secs
  induction secs with
  | nil => intro idx; simp [processSections]
  | cons s rest ih => intro idx; simp [processSections, ih]

theorem processSections_voices (env : Env) (voices : List String) :
    ∀ (secs : List PlanSection) (idx : Int),
      (processSections env voices idx secs).1.map Segment.voice
        = rotationOutputs voices idx secs.length := by
  intro secs
  induction secs with
  | nil => intro idx; simp [processSections, rotationOutputs]
  | cons s rest ih =>
    intro idx
    simp only [processSections, List.map_cons, List.length_cons, rotationOutputs]
    rw [ih]

theorem processSections_final (env : Env) (voices : List String) :
    ∀ (secs : List PlanSection) (idx : Int),
      (processSections env voices idx secs).2.2
        = rotationFinal voices idx secs.length := by
  intro secs
  induction secs with
  | nil => intro idx; simp [processSections, rotationFinal]
  | cons s rest ih =>
    intro idx
    simp only [processSections, List.length_cons, rotationFinal]
    rw [ih]
    rfl

theorem fsExists_fsSet_self (fs : FS) (p v : String) :
    fsExists (fsSet fs p v) p = true := by
  simp [fsExists, fsSet]

theorem fsExists_fsCleanupTemp (fs : FS) (p : String)
    (h : p.startsWith "temp_audio/" = false) :
    fsExists (fsCleanupTemp fs) p = fsExists fs p := by
  induction fs with
  | nil => rfl
  | cons e rest ih =>
    simp only [fsExists, fsCleanupTemp, List.filter_cons] at ih ⊢
    by_cases he : e.1.startsWith "temp_audio/"
    · have hne : (e.1 == p) = false := by
        by_cases heq : e.1 = p
        · rw [heq] at he
          rw [he] at h
          cases h
        · simpa using heq
      simp [he, hne, ih]
    · have he' : e.1.startsWith "temp_audio/" = false := by simpa using he
      simp [he', ih]

/-- C1: idempotent re-run.  If the output file already exists, `make_podcast`
returns immediately: no extraction, script-generation or synthesis effect is
performed and the file system (hence the existing file's bytes) is unchanged.
Consequently, for any output path outside the temp directory, a first run
leaves the output file in place and a second run with the same arguments is a
no-op, so the output file is produced exactly once. -/
theorem c1_idempotent_rerun (fs : FS) (pdf out : String) (md? : Option Metadata)
    (env : Env) :
    (fsExists fs out = true → make_podcast fs pdf out md? env = (fs, [], []))
  ∧ (out.startsWith "temp_audio/" = false →
      fsExists (make_podcast fs pdf out md? env).1 out = true
    ∧ make_podcast (make_podcast fs pdf out md? env).1 pdf out md? env
        = ((make_podcast fs pdf out md? env).1, [], [])) := by
  have hskip : ∀ g : FS, fsExists g out = true → make_podcast g pdf out md? env = (g, [], []) := by
    intro g hg
    simp [make_podcast, hg]
  refine ⟨hskip fs, ?_⟩
  intro hout
  by_cases hex : fsExists fs out
  · rw [hskip fs hex]
    exact ⟨hex, hskip fs hex⟩
  · have hex' : fsExists fs out = false := by simpa using hex
    have hex2 : fsExists (make_podcast fs pdf out md? env).1 out = true := by
      simp only [make_podcast, hex', Bool.false_eq_true, if_false]
      rw [fsExists_fsCleanupTemp _ _ hout, fsExists_fsSet_self]
    exact ⟨hex2, hskip _ hex2⟩

/-- Witness for `c1_idempotent_rerun`: an existing output file is returned
untouched with zero effects, and a fresh run leaves the output file present. -/
theorem c1_idempotent_rerun_witness :
    make_podcast [("out/p.wav", "bytes")] "p.pdf" "out/p.wav" none envW
      = ([("out/p.wav", "bytes")], [], [])
  ∧ fsExists (make_podcast [] "p.pdf" "out/p.wav" none envW).1 "out/p.wav" = true :=
  ⟨(c1_idempotent_rerun [("out/p.wav", "bytes")] "p.pdf" "out/p.wav" none envW).1 rfl,
   ((c1_idempotent_rerun [] "p.pdf" "out/p.wav" none envW).2 rfl).1⟩

/-- C2: segment ordering.  On the generation path the ordered list of segment
files handed to the assembler is exactly
[metadata, summary, background, planned sections in plan order, takeaways],
so segment ordinals are the contiguous positions 0..N-1 of this list, fixed
by insertion order; the final `combine_audio_files` effect receives exactly
this list, in this order. -/
theorem c2_segment_order (fs : FS) (pdf out : String) (md? : Option Metadata)
    (env : Env) (h : fsExists fs out = false) :
    ((make_podcast fs pdf out md? env).2.2.map Segment.file
       = ["temp_audio/metadata.wav", "temp_audio/high_school_summary.wav",
          "temp_audio/background_overview.wav"]
         ++ env.sections.map (fun s => "temp_audio/" ++ s.name ++ ".wav")
         ++ ["temp_audio/final_takeaways.wav"])
  ∧ (make_podcast fs pdf out md? env).2.1.getLast?
       = some (Effect.combine
           ((make_podcast fs pdf out md? env).2.2.map Segment.file) out) := by
  constructor
  · simp [make_podcast, h, processSections_files]
  · simp only [make_podcast, h, Bool.false_eq_true, if_false]
    rw [List.getLast?_concat]

/-- Witness for `c2_segment_order` on a concrete plan with three sections. -/
theorem c2_segment_order_witness :
    ((make_podcast [] "p.pdf" "out.wav" none
        { envW with sections :=
            [⟨"Data", "d", []⟩, ⟨"Methodology", "m", []⟩, ⟨"Findings", "f", []⟩] }).2.2.map
      Segment.file
      = ["temp_audio/metadata.wav", "temp_audio/high_school_summary.wav",
         "temp_audio/background_overview.wav", "temp_audio/Data.wav",
         "temp_audio/Methodology.wav", "temp_audio/Findings.wav",
         "temp_audio/final_takeaways.wav"]) := by
  have h := (c2_segment_order [] "p.pdf" "out.wav" none
    { envW with sections :=
        [⟨"Data", "d", []⟩, ⟨"Methodology", "m", []⟩, ⟨"Findings", "f", []⟩] } rfl).1
  simpa using h

/-- C4 counterexample: the metadata segment (segment 0) is synthesized with
`voices[0]` directly, without advancing the rotator, and the summary segment
(segment 1) then receives `get_next_voice(voices, -1) = voices[0]` again: so
segment 1 does not receive `VOICES[1 mod L] = "af_sarah"`, and two
consecutive segments share the same voice although `L = 4 > 1`. -/
theorem c4_counterexample :
    ((make_podcast [] "p.pdf" "out.wav" (some ⟨"T", none, none, none⟩) envW).2.2.map
        Segment.voice).getD 1 "" = "af_bella"
  ∧ VOICES.getD (1 % VOICES.length) "" = "af_sarah"
  ∧ ((make_podcast [] "p.pdf" "out.wav" (some ⟨"T", none, none, none⟩) envW).2.2.map
        Segment.voice).getD 0 ""
      = ((make_podcast [] "p.pdf" "out.wav" (some ⟨"T", none, none, none⟩) envW).2.2.map
          Segment.voice).getD 1 ""
  ∧ ("af_bella" : String) ≠ "af_sarah" :=
  ⟨rfl, rfl, rfl, by decide⟩

/-- C4 amended: within one episode the metadata segment is synthesized with
`VOICES[0]` without a rotator call; every subsequent segment (summary,
background, each section in plan order, takeaways) receives the next rotator
voice starting from index `-1`, so segment `i` with `i ≥ 1` receives
`VOICES[(i-1) mod L]`.  In particular segments 0 and 1 both receive
`VOICES[0]`. -/
theorem c4_amended_voice_rotation (fs : FS) (pdf out : String)
    (md? : Option Metadata) (env : Env) (h : fsExists fs out = false) :
    ((make_podcast fs pdf out md? env).2.2.map Segment.voice
       = "af_bella" :: rotationOutputs VOICES (-1) (3 + env.sections.length))
  ∧ (∀ i, i < 3 + env.sections.length →
      (rotationOutputs VOICES (-1) (3 + env.sections.length)).getD i ""
        = VOICES.getD (i % 4) "") := by
  constructor
  · have hdecomp : rotationOutputs VOICES (-1) (3 + env.sections.length)
        = "af_bella" :: "af_sarah"
            :: (rotationOutputs VOICES 1 env.sections.length
                ++ rotationOutputs VOICES
                     (rotationFinal VOICES 1 env.sections.length) 1) := by
      rw [show 3 + env.sections.length = 2 + (env.sections.length + 1) by omega]
      rw [rotationOutputs_append VOICES (-1) 2 (env.sections.length + 1)]
      rw [show rotationFinal VOICES (-1) 2 = 1 by decide]
      rw [rotationOutputs_append VOICES 1 env.sections.length 1]
      rw [show rotationOutputs VOICES (-1) 2 = ["af_bella", "af_sarah"] by decide]
      rfl
    rw [hdecomp]
    have e0 : VOICES.getD 0 "" = "af_bella" := rfl
    have e1 : get_next_voice VOICES (-1) = ("af_bella", 0) := by decide
    have e2 : get_next_voice VOICES 0 = ("af_sarah", 1) := by decide
    have hone : ∀ j : Int, rotationOutputs VOICES j 1 = [(get_next_voice VOICES j).1] :=
      fun j => rfl
    simp [make_podcast, h, processSections_voices, processSections_final, e0, e1, e2, hone]
    rfl
  · intro i hi
    rw [rotationOutputs_getD VOICES (3 + env.sections.length) i hi]
    rfl

/-- Witness for `c4_amended_voice_rotation` on a one-section plan. -/
theorem c4_amended_voice_rotation_witness :
    ((make_podcast [] "p.pdf" "out.wav" (some ⟨"T", none, none, none⟩) envW).2.2.map
        Segment.voice
      = "af_bella" :: rotationOutputs VOICES (-1) (3 + envW.sections.length))
  ∧ (rotationOutputs VOICES (-1) (3 + envW.sections.length)).getD 0 ""
      = VOICES.getD (0 % 4) "" :=
  ⟨(c4_amended_voice_rotation [] "p.pdf" "out.wav" (some ⟨"T", none, none, none⟩)
      envW rfl).1,
   (c4_amended_voice_rotation [] "p.pdf" "out.wav" (some ⟨"T", none, none, none⟩)
      envW rfl).2 0 (by decide)⟩

/-! ## Normalizer lemmas: counting `percent` through the five cleaning steps -/

theorem ne_of_nonws_ws {x y : Char} (hx : isWsChar x = false)
    (hy : isWsChar y = true) : (x == y) = false := by
  by_cases h : x = y
  · rw [h] at hx
    rw [hx] at hy
    cases hy
  · simpa using h

theorem dropTrailingWs_eq_nil {s : List Char} :
    dropTrailingWs s = [] → ∀ x ∈ s, isWsChar x = true := by
  induction s with
  | nil =>
    intro _ x hx
    cases hx
  | cons c rest ih =>
    intro h x hx
    rcases hr : dropTrailingWs rest with _ | ⟨r0, rr⟩
    · simp only [dropTrailingWs, hr] at h
      by_cases hc : isWsChar c
      · rcases List.mem_cons.mp hx with h' | h'
        · rw [h']
          exact hc
        · exact ih hr x h'
      · rw [if_neg hc] at h
        cases h
    · simp only [dropTrailingWs, hr] at h
      cases h

theorem allWs_isPrefixOf_false {x : Char} {q' s : List Char}
    (hx : isWsChar x = false) (hs : ∀ y ∈ s, isWsChar y = true) :
    (x :: q').isPrefixOf s = false := by
  cases s with
  | nil => rfl
  | cons c s' =>
    have hc := hs c (List.mem_cons_self c s')
    have hxc : (x == c) = false := ne_of_nonws_ws hx hc
    simp [List.isPrefixOf, hxc]

theorem allWs_countSubstr_zero {x : Char} {q' : List Char} (hx : isWsChar x = false) :
    ∀ s, (∀ y ∈ s, isWsChar y = true) → countSubstr (x :: q') s = 0 := by
  intro s
  induction s with
  | nil => intro _; rfl
  | cons c s' ih =>
    intro hs
    have h1 : (x :: q').isPrefixOf (c :: s') = false := allWs_isPrefixOf_false hx hs
    simp [countSubstr, h1, ih (fun y hy => hs y (List.mem_cons_of_mem _ hy))]

/-- A characterwise substitution that only ever replaces characters by spaces
leaves prefix tests by space-free patterns unchanged, provided the pattern's
own characters are fixed points. -/
theorem isPrefixOf_map (f : Char → Char) (hf : ∀ c, f c = c ∨ f c = ' ') :
    ∀ (q s : List Char), (∀ x ∈ q, f x = x ∧ x ≠ ' ') →
      q.isPrefixOf (s.map f) = q.isPrefixOf s := by
  intro q
  induction q with
  | nil =>
    intro s _
    simp [List.isPrefixOf]
  | cons x q' ih =>
    intro s hq
    have hx := hq x (List.mem_cons_self x q')
    have hq' := fun y hy => hq y (List.mem_cons_of_mem x hy)
    cases s with
    | nil => rfl
    | cons c s' =>
      simp only [List.map_cons, List.isPrefixOf]
      rw [ih s' hq']
      congr 1
      rcases hf c with hc | hc
      · rw [hc]
      · rw [hc]
        have hxs : (x == ' ') = false := by simpa using hx.2
        have hxc : (x == c) = false := by
          by_cases hxc' : x = c
          · subst hxc'
            exact absurd (hx.1.symm.trans hc) hx.2
          · simpa using hxc'
        rw [hxs, hxc]

theorem countSubstr_map (f : Char → Char) (hf : ∀ c, f c = c ∨ f c = ' ')
    (q : List Char) (hq : ∀ x ∈ q, f x = x ∧ x ≠ ' ') :
    ∀ s, countSubstr q (s.map f) = countSubstr q s := by
  intro s
  induction s with
  | nil => rfl
  | cons c s' ih =>
    have hpre : q.isPrefixOf (f c :: s'.map f) = q.isPrefixOf (c :: s') := by
      rw [← List.map_cons]
      exact isPrefixOf_map f hf q (c :: s') hq
    simp only [List.map_cons, countSubstr, hpre, ih]

/-- `%`-expansion leaves prefix tests by patterns free of `%` and space
unchanged. -/
theorem isPrefixOf_expandPct :
    ∀ (q : List Char), (∀ x ∈ q, x ≠ '%' ∧ x ≠ ' ') →
      ∀ s, q.isPrefixOf (expandPct s) = q.isPrefixOf s := by
  intro q
  induction q with
  | nil =>
    intro _ s
    simp [List.isPrefixOf]
  | cons x q' ih =>
    intro hq s
    have hx := hq x (List.mem_cons_self x q')
    have hq' := fun y hy => hq y (List.mem_cons_of_mem x hy)
    cases s with
    | nil => rfl
    | cons c s' =>
      by_cases hc : c = '%'
      · subst hc
        have hxs : (x == ' ') = false := by simpa using hx.2
        have hxp : (x == '%') = false := by simpa using hx.1
        rw [show expandPct ('%' :: s')
            = ' ' :: ('p' :: 'e' :: 'r' :: 'c' :: 'e' :: 'n' :: 't' :: expandPct s')
          from rfl]
        simp [List.isPrefixOf, hxs, hxp]
      · rw [show expandPct (c :: s') = c :: expandPct s' from by simp [expandPct, hc]]
        simp only [List.isPrefixOf]
        rw [ih hq' s']

/-- Step 1 accounting: every `%` contributes exactly one new occurrence of
`percent`, and all original occurrences survive. -/
theorem countSubstr_expandPct : ∀ s, countSubstr pctWord (expandPct s)
    = s.count '%' + countSubstr pctWord s := by
  intro s
  induction s with
  | nil => rfl
  | cons c s' ih =>
    by_cases hc : c = '%'
    · subst hc
      rw [show expandPct ('%' :: s')
          = ' ' :: 'p' :: 'e' :: 'r' :: 'c' :: 'e' :: 'n' :: 't' :: expandPct s'
        from rfl]
      have h0 : pctWord.isPrefixOf
          (' ' :: 'p' :: 'e' :: 'r' :: 'c' :: 'e' :: 'n' :: 't' :: expandPct s') = false := by
        simp [pctWord, List.isPrefixOf]
      have h1 : pctWord.isPrefixOf
          ('p' :: 'e' :: 'r' :: 'c' :: 'e' :: 'n' :: 't' :: expandPct s') = true := by
        simp [pctWord, List.isPrefixOf]
      have h2 : pctWord.isPrefixOf
          ('e' :: 'r' :: 'c' :: 'e' :: 'n' :: 't' :: expandPct s') = false := by
        simp [pctWord, List.isPrefixOf]
      have h3 : pctWord.isPrefixOf
          ('r' :: 'c' :: 'e' :: 'n' :: 't' :: expandPct s') = false := by
        simp [pctWord, List.isPrefixOf]
      have h4 : pctWord.isPrefixOf ('c' :: 'e' :: 'n' :: 't' :: expandPct s') = false := by
        simp [pctWord, List.isPrefixOf]
      have h5 : pctWord.isPrefixOf ('e' :: 'n' :: 't' :: expandPct s') = false := by
        simp [pctWord, List.isPrefixOf]
      have h6 : pctWord.isPrefixOf ('n' :: 't' :: expandPct s') = false := by
        simp [pctWord, List.isPrefixOf]
      have h7 : pctWord.isPrefixOf ('t' :: expandPct s') = false := by
        simp [pctWord, List.isPrefixOf]
      have h8 : pctWord.isPrefixOf ('%' :: s') = false := by
        simp [pctWord, List.isPrefixOf]
      simp only [countSubstr, h0, h1, h2, h3, h4, h5, h6, h7, h8, ih, List.count_cons]
      simp
      omega
    · have hpre : pctWord.isPrefixOf (c :: expandPct s')
          = pctWord.isPrefixOf (c :: s') := by
        rw [show (c :: expandPct s') = expandPct (c :: s') from by simp [expandPct, hc]]
        exact isPrefixOf_expandPct pctWord (by decide) (c :: s')
      rw [show expandPct (c :: s') = c :: expandPct s' from by simp [expandPct, hc]]
      simp only [countSubstr, hpre, ih, List.count_cons]
      have hcc : (c == '%') = false := by simpa using hc
      simp [hcc]
      omega

/-- Whitespace collapsing leaves prefix tests by whitespace-free patterns
unchanged. -/
theorem isPrefixOf_collapseWs (s : List Char) :
    ∀ q : List Char, (∀ x ∈ q, isWsChar x = false) →
      q.isPrefixOf (collapseWs s) = q.isPrefixOf s := by
  induction s using collapseWs.induct with
  | case1 =>
    intro q hq
    rfl
  | case2 c =>
    intro q hq
    cases q with
    | nil => rfl
    | cons x q' =>
      have hx := hq x (List.mem_cons_self x q')
      by_cases hc : isWsChar c
      · have hxs : (x == ' ') = false := ne_of_nonws_ws hx (by decide)
        have hxc : (x == c) = false := ne_of_nonws_ws hx hc
        simp [collapseWs, hc, List.isPrefixOf, hxs, hxc]
      · simp [collapseWs, hc]
  | case3 a b rest hab ih =>
    rw [show collapseWs (a :: b :: rest) = collapseWs (b :: rest) from by
      simp [collapseWs, hab]]
    intro q hq
    rw [ih q hq]
    cases q with
    | nil => rfl
    | cons x q' =>
      have hx := hq x (List.mem_cons_self x q')
      have hab' := hab
      rw [Bool.and_eq_true] at hab'
      have ha : isWsChar a = true := hab'.1
      have hb : isWsChar b = true := hab'.2
      have hxa : (x == a) = false := ne_of_nonws_ws hx ha
      have hxb : (x == b) = false := ne_of_nonws_ws hx hb
      simp [List.isPrefixOf, hxa, hxb]
  | case4 a b rest hab ih =>
    rw [show collapseWs (a :: b :: rest)
        = (if isWsChar a then ' ' else a) :: collapseWs (b :: rest) from by
      simp [collapseWs, hab]]
    intro q hq
    cases q with
    | nil => rfl
    | cons x q' =>
      have hx := hq x (List.mem_cons_self x q')
      have hq' := fun y hy => hq y (List.mem_cons_of_mem x hy)
      simp only [List.isPrefixOf]
      rw [ih q' hq']
      congr 1
      by_cases ha : isWsChar a
      · have hxs : (x == ' ') = false := ne_of_nonws_ws hx (by decide)
        have hxa : (x == a) = false := ne_of_nonws_ws hx ha
        rw [if_pos ha, hxs, hxa]
      · rw [if_neg ha]

/-- Whitespace collapsing preserves the occurrence count of whitespace-free
patterns of length at least two. -/
theorem countSubstr_collapseWs (s : List Char) :
    ∀ q : List Char, (∀ x ∈ q, isWsChar x = false) → 2 ≤ q.length →
      countSubstr q (collapseWs s) = countSubstr q s := by
  induction s using collapseWs.induct with
  | case1 =>
    intro q hq hl
    rfl
  | case2 c =>
    intro q hq hl
    rcases q with _ | ⟨x, _ | ⟨x2, q''⟩⟩
    · simp at hl
    · simp at hl
    · simp [collapseWs, countSubstr, List.isPrefixOf]
  | case3 a b rest hab ih =>
    intro q hq hl
    rw [show collapseWs (a :: b :: rest) = collapseWs (b :: rest) from by
      simp [collapseWs, hab]]
    rw [ih q hq hl]
    rcases q with _ | ⟨x, q'⟩
    · simp at hl
    · have hx := hq x (List.mem_cons_self x q')
      have hab' := hab
      rw [Bool.and_eq_true] at hab'
      have hxa : (x == a) = false := ne_of_nonws_ws hx hab'.1
      simp [countSubstr, List.isPrefixOf, hxa]
  | case4 a b rest hab ih =>
    intro q hq hl
    have hpre : q.isPrefixOf (collapseWs (a :: b :: rest))
        = q.isPrefixOf (a :: b :: rest) := isPrefixOf_collapseWs (a :: b :: rest) q hq
    rw [show collapseWs (a :: b :: rest)
        = (if isWsChar a then ' ' else a) :: collapseWs (b :: rest) from by
      simp [collapseWs, hab]] at hpre ⊢
    simp only [countSubstr, hpre, ih q hq hl]

/-- Stripping leading whitespace preserves the occurrence count of nonempty
whitespace-free patterns. -/
theorem countSubstr_dropWhileWs (q : List Char) (hq : ∀ x ∈ q, isWsChar x = false)
    (hne : q ≠ []) :
    ∀ s, countSubstr q (s.dropWhile isWsChar) = countSubstr q s := by
  intro s
  induction s with
  | nil => rfl
  | cons c s' ih =>
    by_cases hc : isWsChar c
    · rcases q with _ | ⟨x, q'⟩
      · exact absurd rfl hne
      · have hxc : (x == c) = false :=
          ne_of_nonws_ws (hq x (List.mem_cons_self x q')) hc
        simp [List.dropWhile_cons, hc, countSubstr, List.isPrefixOf, hxc, ih]
    · simp [List.dropWhile_cons, hc]

/-- Stripping trailing whitespace leaves prefix tests by whitespace-free
patterns unchanged. -/
theorem isPrefixOf_dropTrailingWs :
    ∀ (s q : List Char), (∀ x ∈ q, isWsChar x = false) →
      q.isPrefixOf (dropTrailingWs s) = q.isPrefixOf s := by
  intro s
  induction s with
  | nil =>
    intro q hq
    rfl
  | cons c rest ih =>
    intro q hq
    rcases hr : dropTrailingWs rest with _ | ⟨r0, rr⟩
    · have hws := dropTrailingWs_eq_nil hr
      by_cases hc : isWsChar c
      · rw [show dropTrailingWs (c :: rest) = [] from by simp [dropTrailingWs, hr, hc]]
        cases q with
        | nil => rfl
        | cons x q' =>
          have hxc : (x == c) = false :=
            ne_of_nonws_ws (hq x (List.mem_cons_self x q')) hc
          simp [List.isPrefixOf, hxc]
      · rw [show dropTrailingWs (c :: rest) = [c] from by simp [dropTrailingWs, hr, hc]]
        cases q with
        | nil => rfl
        | cons x q' =>
          simp only [List.isPrefixOf]
          congr 1
          cases q' with
          | nil => simp [List.isPrefixOf]
          | cons y q'' =>
            have hy : isWsChar y = false :=
              hq y (List.mem_cons_of_mem x (List.mem_cons_self y q''))
            have h2 : (y :: q'').isPrefixOf rest = false :=
              allWs_isPrefixOf_false hy hws
            simp [List.isPrefixOf, h2]
    · rw [show dropTrailingWs (c :: rest) = c :: r0 :: rr from by
        simp [dropTrailingWs, hr]]
      cases q with
      | nil => rfl
      | cons x q' =>
        simp only [List.isPrefixOf]
        rw [← hr, ih q' (fun y hy => hq y (List.mem_cons_of_mem x hy))]

/-- Stripping trailing whitespace preserves the occurrence count of
whitespace-free patterns of length at least two. -/
theorem countSubstr_dropTrailingWs (q : List Char) (hq : ∀ x ∈ q, isWsChar x = false)
    (hl : 2 ≤ q.length) :
    ∀ s, countSubstr q (dropTrailingWs s) = countSubstr q s := by
  intro s
  induction s with
  | nil => rfl
  | cons c rest ih =>
    rcases q with _ | ⟨x, _ | ⟨x2, q''⟩⟩
    · simp at hl
    · simp at hl
    · have hx : isWsChar x = false := hq x (List.mem_cons_self x (x2 :: q''))
      have hx2 : isWsChar x2 = false :=
        hq x2 (List.mem_cons_of_mem x (List.mem_cons_self x2 q''))
      rcases hr : dropTrailingWs rest with _ | ⟨r0, rr⟩
      · have hws := dropTrailingWs_eq_nil hr
        have hzero : countSubstr (x :: x2 :: q'') rest = 0 :=
          allWs_countSubstr_zero hx rest hws
        by_cases hc : isWsChar c
        · rw [show dropTrailingWs (c :: rest) = [] from by
            simp [dropTrailingWs, hr, hc]]
          have hxc : (x == c) = false := ne_of_nonws_ws hx hc
          simp [countSubstr, List.isPrefixOf, hxc, hzero]
        · rw [show dropTrailingWs (c :: rest) = [c] from by
            simp [dropTrailingWs, hr, hc]]
          have h2 : (x2 :: q'').isPrefixOf rest = false :=
            allWs_isPrefixOf_false hx2 hws
          simp [countSubstr, List.isPrefixOf, h2, hzero]
      · rw [show dropTrailingWs (c :: rest) = c :: r0 :: rr from by
          simp [dropTrailingWs, hr]]
        have hpre : (x :: x2 :: q'').isPrefixOf (c :: r0 :: rr)
            = (x :: x2 :: q'').isPrefixOf (c :: rest) := by
          rw [show ((x :: x2 :: q'').isPrefixOf (c :: r0 :: rr))
                = (x == c && (x2 :: q'').isPrefixOf (r0 :: rr)) from rfl,
              show ((x :: x2 :: q'').isPrefixOf (c :: rest))
                = (x == c && (x2 :: q'').isPrefixOf rest) from rfl,
              ← hr, isPrefixOf_dropTrailingWs rest (x2 :: q'')
                (fun y hy => hq y (List.mem_cons_of_mem x hy))]
        have htail : countSubstr (x :: x2 :: q'') (r0 :: rr)
            = countSubstr (x :: x2 :: q'') rest := by
          rw [← hr]
          exact ih
        rw [show countSubstr (x :: x2 :: q'') (c :: r0 :: rr)
              = (if (x :: x2 :: q'').isPrefixOf (c :: r0 :: rr) = true then 1 else 0)
                + countSubstr (x :: x2 :: q'') (r0 :: rr) from rfl,
            show countSubstr (x :: x2 :: q'') (c :: rest)
              = (if (x :: x2 :: q'').isPrefixOf (c :: rest) = true then 1 else 0)
                + countSubstr (x :: x2 :: q'') rest from rfl,
            hpre, htail]

/-- C9 counterexample: the input `"percent"` contains no `%` character, yet
`clean_text` keeps its one occurrence of the word `percent`, so the number of
`percent` occurrences in the output does not equal the number of `%`
characters in the input. -/
theorem c9_counterexample :
    ¬ (countSubstr pctWord (clean_text ['p', 'e', 'r', 'c', 'e', 'n', 't'])
        = (['p', 'e', 'r', 'c', 'e', 'n', 't'] : List Char).count '%') := by decide

/-- C9 amended: for every input, the number of occurrences of the letter
sequence `percent` in `clean_text`'s output equals the number of `%`
characters in the input plus the number of `percent` occurrences already
present in the input: each `%` expands to exactly one new `percent`, and the
remaining cleaning steps (star removal, special-character replacement,
whitespace collapsing, trimming) neither create nor destroy occurrences. -/
theorem c9_amended_percent_count (l : List Char) :
    countSubstr pctWord (clean_text l)
      = l.count '%' + countSubstr pctWord l := by
  have hq : ∀ x ∈ pctWord, isWsChar x = false := by decide
  have hl : 2 ≤ pctWord.length := by decide
  have hfstar : ∀ c, starToSpace c = c ∨ starToSpace c = ' ' := by
    intro c
    by_cases h : c = '*'
    · right
      simp [starToSpace, h]
    · left
      simp [starToSpace, h]
  have hfclassify : ∀ c, classify c = c ∨ classify c = ' ' := by
    intro c
    by_cases h : isAllowed c
    · left
      simp [classify, h]
    · right
      simp [classify, h]
  have hqstar : ∀ x ∈ pctWord, starToSpace x = x ∧ x ≠ ' ' := by decide
  have hqclassify : ∀ x ∈ pctWord, classify x = x ∧ x ≠ ' ' := by decide
  unfold clean_text stripWs
  rw [countSubstr_dropTrailingWs pctWord hq hl,
      countSubstr_dropWhileWs pctWord hq (by decide),
      countSubstr_collapseWs _ pctWord hq hl,
      countSubstr_map classify hfclassify pctWord hqclassify,
      countSubstr_map starToSpace hfstar pctWord hqstar,
      countSubstr_expandPct l]
